import Mathlib

/-!
# gcc.dg/pr44194-1.c

A verification development for the regression test
`gcc/testsuite/gcc.dg/pr44194-1.c`:

```c
/* { dg-do compile } */
/* { dg-options "-O2 -fdump-rtl-dse1" } */
struct ints { int a, b, c; } foo();
void bar(int a, int b);

void func() {
  struct ints s = foo();
  bar(s.a, s.b);
}
/* { dg-final { scan-rtl-dump "global deletions = 2"  "dse1" } } */
/* { dg-final { cleanup-rtl-dump "dse1" } } */
```

The file has three layers, each embedded below:

* the C function `func`, with the external functions `foo` and `bar` as
  parameters acting on an arbitrary world state;
* a lowering of `func` to straight-line field stores and loads, on which
  dead stores are defined;
* the harness directives of the file and the dump search they request.
-/

namespace Pr44194

/-! ## The C function -/

/-- The C type `struct ints { int a, b, c; }`.  No arithmetic is performed on
the fields, so they are carried as integers. -/
structure ints where
  a : Int
  b : Int
  c : Int
  deriving DecidableEq, Repr

/-- The body of `func`:
```c
struct ints s = foo();
bar(s.a, s.b);
```
`foo` and `bar` have no bodies in the file; they are parameters that act on a
world state `W` of any type. -/
def func {W : Type} (foo : W → ints × W) (bar : Int → Int → W → W) (w : W) : W :=
  let r := foo w
  let s : ints := r.1
  bar s.a s.b r.2

/-- An observable event of `func`: a call to one of the external functions,
with its arguments. -/
inductive Call where
  | foo : Call
  | bar : Int → Int → Call
  deriving DecidableEq, Repr

/-- The external function `foo`, instrumented to record its call. -/
def tracedFoo {W : Type} (foo : W → ints × W) (wt : W × List Call) : ints × (W × List Call) :=
  ((foo wt.1).1, ((foo wt.1).2, wt.2 ++ [Call.foo]))

/-- The external function `bar`, instrumented to record its call and its
arguments. -/
def tracedBar {W : Type} (bar : Int → Int → W → W) (a b : Int) (wt : W × List Call) :
    W × List Call :=
  (bar a b wt.1, wt.2 ++ [Call.bar a b])

/-- The calls to `bar` in a trace. -/
def barCalls : List Call → List Call
  | [] => []
  | Call.foo :: t => barCalls t
  | Call.bar a b :: t => Call.bar a b :: barCalls t

/-! ## The lowering of `func` to field stores and loads -/

/-- The three fields of `struct ints`. -/
inductive Field where
  | a : Field
  | b : Field
  | c : Field
  deriving DecidableEq, Repr

/-- Field selection `r.f`. -/
def ints.get (r : ints) : Field → Int
  | Field.a => r.a
  | Field.b => r.b
  | Field.c => r.c

/-- The instructions `func` lowers to.  The local `s` is the only memory. -/
inductive Instr where
  /-- `ret = foo ()` -/
  | callFoo : Instr
  /-- `s.f = ret.f` -/
  | store : Field → Instr
  /-- read `s.f` as the next argument of the pending call -/
  | load : Field → Instr
  /-- `bar (arg0, arg1)` -/
  | callBar : Instr
  deriving DecidableEq, Repr

/-- The state of the lowered function: the world the external functions act
on, the value last returned by `foo`, the local `s` (a field is `none` until it
is written) and the arguments read so far for the pending call. -/
structure Frame (W : Type) where
  world : W
  ret : Option ints
  s : Field → Option Int
  args : List Int

/-- The state on entry to the function. -/
def Frame.entry {W : Type} (w : W) : Frame W :=
  { world := w, ret := none, s := fun _ => none, args := [] }

/-- Writing one field of the local. -/
def setField (s : Field → Option Int) (f : Field) (v : Int) : Field → Option Int :=
  fun g => if g = f then some v else s g

/-- One instruction.  Reading a field that was never written, storing before
`foo` has returned, and calling `bar` with other than two arguments have no
defined result. -/
def step {W : Type} (foo : W → ints × W) (bar : Int → Int → W → W) :
    Instr → Frame W → Option (Frame W)
  | Instr.callFoo, σ =>
      let r := foo σ.world
      some { σ with world := r.2, ret := some r.1 }
  | Instr.store f, σ =>
      match σ.ret with
      | some r => some { σ with s := setField σ.s f (r.get f) }
      | none => none
  | Instr.load f, σ =>
      match σ.s f with
      | some v => some { σ with args := σ.args ++ [v] }
      | none => none
  | Instr.callBar, σ =>
      match σ.args with
      | [x, y] => some { σ with world := bar x y σ.world, args := [] }
      | _ => none

/-- A straight-line instruction sequence. -/
def run {W : Type} (foo : W → ints × W) (bar : Int → Int → W → W) :
    List Instr → Frame W → Option (Frame W)
  | [], σ => some σ
  | i :: rest, σ =>
      match step foo bar i σ with
      | some τ => run foo bar rest τ
      | none => none

/-- The world a program leaves behind when started in world `w`. -/
def exec {W : Type} (foo : W → ints × W) (bar : Int → Int → W → W) (p : List Instr) (w : W) :
    Option W :=
  (run foo bar p (Frame.entry w)).map Frame.world

/-- The calls a program makes, in order, when started in world `w`. -/
def observe {W : Type} (foo : W → ints × W) (bar : Int → Int → W → W) (p : List Instr) (w : W) :
    Option (List Call) :=
  (exec (tracedFoo foo) (tracedBar bar) p (w, [])).map Prod.snd

/-- The body of `func` with the initialisation of `s` written as three field
stores of the result of `foo`, followed by the two reads that build the call
to `bar`. -/
def funcStores : List Instr :=
  [Instr.callFoo, Instr.store Field.a, Instr.store Field.b, Instr.store Field.c,
   Instr.load Field.a, Instr.load Field.b, Instr.callBar]

/-- Whether field `f` is read by the instructions `rest` before it is
overwritten or the function exits.  The address of the local `s` is never
taken, so the calls to `foo` and `bar` neither read nor write it. -/
def readLater (f : Field) : List Instr → Bool
  | [] => false
  | Instr.load g :: rest => if g = f then true else readLater f rest
  | Instr.store g :: rest => if g = f then false else readLater f rest
  | Instr.callFoo :: rest => readLater f rest
  | Instr.callBar :: rest => readLater f rest

/-- A dead store, in the words of the specification: instruction `i` of `p` is
a write that is never subsequently read before being overwritten or the
function exits. -/
def deadStore (p : List Instr) (i : Nat) : Bool :=
  match p.drop i with
  | Instr.store f :: rest => !readLater f rest
  | _ => false

/-- Deletion of every dead store of a program, in the words of the
specification: the writes that are never subsequently read are deleted. -/
def dse : List Instr → List Instr
  | [] => []
  | Instr.store f :: rest => if readLater f rest then Instr.store f :: dse rest else dse rest
  | i :: rest => i :: dse rest

/-- The variant of `funcStores` with the store to `s.c` deleted. -/
def funcStoresNoC : List Instr :=
  funcStores.eraseIdx 3

/-- Two frames that differ at most in the fields marked by `dead`. -/
def AgreeOff {W : Type} (dead : Field → Bool) (σ τ : Frame W) : Prop :=
  σ.world = τ.world ∧ σ.ret = τ.ret ∧ σ.args = τ.args ∧ ∀ f, dead f = false → σ.s f = τ.s f

/-! ## The harness directives -/

/-- The action of a `dg-final` directive. -/
inductive Final where
  /-- `scan-rtl-dump "pattern" "pass"` -/
  | scanRtlDump : String → String → Final
  /-- `cleanup-rtl-dump "pass"` -/
  | cleanupRtlDump : String → Final
  deriving DecidableEq, Repr

/-- A harness directive, as written in a comment `{ dg-... }` of the file. -/
inductive Directive where
  /-- `dg-do mode` -/
  | dgDo : String → Directive
  /-- `dg-options "flags"` -/
  | dgOptions : String → Directive
  /-- `dg-final { action }` -/
  | dgFinal : Final → Directive
  deriving DecidableEq, Repr

/-- The directives of `pr44194-1.c`, in file order (lines 1, 2, 12 and 13). -/
def directives : List Directive :=
  [ Directive.dgDo "compile",
    Directive.dgOptions "-O2 -fdump-rtl-dse1",
    Directive.dgFinal (Final.scanRtlDump "global deletions = 2" "dse1"),
    Directive.dgFinal (Final.cleanupRtlDump "dse1") ]

/-- The modes of the `dg-do` directives. -/
def doModes : List Directive → List String
  | [] => []
  | Directive.dgDo m :: ds => m :: doModes ds
  | _ :: ds => doModes ds

/-- The words of a text, separated by blanks; `cur` is the word being read,
last character first. -/
def wordsFrom (cur : List Char) : List Char → List (List Char)
  | [] => if cur.isEmpty then [] else [cur.reverse]
  | c :: cs =>
      if c = ' ' then
        if cur.isEmpty then wordsFrom [] cs else cur.reverse :: wordsFrom [] cs
      else wordsFrom (c :: cur) cs

/-- The words of a text, separated by blanks. -/
def words (text : List Char) : List (List Char) :=
  wordsFrom [] text

/-- The compiler flags given by the `dg-options` directives. -/
def optionFlags : List Directive → List (List Char)
  | [] => []
  | Directive.dgOptions o :: ds => words o.toList ++ optionFlags ds
  | _ :: ds => optionFlags ds

/-- The passes whose dump a `scan-rtl-dump` assertion reads. -/
def scannedPasses : List Directive → List String
  | [] => []
  | Directive.dgFinal (Final.scanRtlDump _ pass) :: ds => pass :: scannedPasses ds
  | _ :: ds => scannedPasses ds

/-- The passes whose dump a `cleanup-rtl-dump` directive removes. -/
def cleanedPasses : List Directive → List String
  | [] => []
  | Directive.dgFinal (Final.cleanupRtlDump pass) :: ds => pass :: cleanedPasses ds
  | _ :: ds => cleanedPasses ds

/-- The compiler flag that requests the RTL dump of a pass. -/
def dumpFlag (pass : String) : List Char :=
  "-fdump-rtl-".toList ++ pass.toList

/-- Whether the options of the file request the RTL dump of `pass`. -/
def dumpRequested (ds : List Directive) (pass : String) : Bool :=
  (optionFlags ds).contains (dumpFlag pass)

/-! ## The dump search -/

/-- The positions of `text` at which `pat` starts. -/
def occurrences (pat : List Char) : List Char → List Nat
  | [] => if pat.isPrefixOf [] then [0] else []
  | c :: cs =>
      (if pat.isPrefixOf (c :: cs) then [0] else []) ++ (occurrences pat cs).map (· + 1)

/-- Modelled from the spec: the harness procedure `scan-rtl-dump`, which lives
in the test-suite library and not in the test file.  It is a post-compile
assertion against a debug dump that fails when the expected pattern is absent
from the dump.  The pattern of this file has no regular-expression operator, so
the search is for the pattern as written. -/
def scanRtlDump (pattern : List Char) (dump : List Char) : Bool :=
  !(occurrences pattern dump).isEmpty

/-- The outcome of the `scan-rtl-dump` assertions of a directive list on the
text of the dump: `true` when every one of them passes. -/
def finalPasses : List Directive → List Char → Bool
  | [], _ => true
  | Directive.dgFinal (Final.scanRtlDump pattern _) :: ds, dump =>
      scanRtlDump pattern.toList dump && finalPasses ds dump
  | _ :: ds, dump => finalPasses ds dump

/-- The outcome of the final assertion of `pr44194-1.c` on the text of the
`dse1` dump. -/
def testPasses (dump : List Char) : Bool :=
  finalPasses directives dump

/-- The text that introduces the count in the report line of the pass. -/
def countKey : List Char :=
  "global deletions = ".toList

/-- Modelled from the spec: the report line of the dead-store-elimination
pass, which is written by the compiler and not by the test file.  The dump
reports the count `N` when the text `global deletions = ` occurs exactly once
in it and is followed by the decimal numeral of `N` and then by no further
digit. -/
def reportsCount (dump : List Char) (N : Nat) : Bool :=
  match occurrences countKey dump with
  | [i] =>
      let rest := dump.drop (i + countKey.length)
      let digits := Nat.toDigits 10 N
      digits.isPrefixOf rest &&
        (match rest.drop digits.length with
         | [] => true
         | c :: _ => !c.isDigit)
  | _ => false

/-- A dump whose report line gives the count 20. -/
def dumpTwenty : List Char :=
  "dse: local deletions = 0, global deletions = 20, spill deletions = 0\n".toList

/-- A dump whose report line gives the count 2. -/
def dumpTwo : List Char :=
  "dse: local deletions = 0, global deletions = 2, spill deletions = 0\n".toList

end Pr44194

namespace Pr44194

/-! ## `func` -/

theorem func_eq {W : Type} (foo : W → ints × W) (bar : Int → Int → W → W) (w : W) :
    func foo bar w = bar (foo w).1.a (foo w).1.b (foo w).2 := rfl

/-- C2: with `foo` and `bar` as parameters acting on any world, whenever `foo`
returns the struct `(a, b, c)`, one execution of `func` calls `foo` exactly
once, then `bar` exactly once with the arguments `(a, b)` in that order, and
the world it leaves is the one `bar a b` makes of the world `foo` left: the
field `c` is not used. -/
theorem func_calls_foo_then_bar {W : Type} (foo : W → ints × W) (bar : Int → Int → W → W)
    (w w' : W) (t : List Call) (a b c : Int)
    (hfoo : foo w = ({ a := a, b := b, c := c }, w')) :
    func (tracedFoo foo) (tracedBar bar) (w, t) = (bar a b w', t ++ [Call.foo, Call.bar a b]) := by
  simp [func, tracedFoo, tracedBar, hfoo]

theorem func_calls_foo_then_bar_witness :
    (fun n : Nat => (({ a := 1, b := 2, c := 3 } : ints), n + 1)) 0 = ({ a := 1, b := 2, c := 3 }, 1) ∧
    func (tracedFoo fun n : Nat => (({ a := 1, b := 2, c := 3 } : ints), n + 1))
        (tracedBar fun x y n => (x + y).toNat + n) (0, []) =
      ((((1 : Int) + 2).toNat + 1), [] ++ [Call.foo, Call.bar 1 2]) :=
  ⟨rfl, func_calls_foo_then_bar (fun n : Nat => (({ a := 1, b := 2, c := 3 } : ints), n + 1))
    (fun x y n => (x + y).toNat + n) 0 1 [] 1 2 3 rfl⟩

/-- C6: the third field of the result of `foo` never influences `func`: when two
versions of `foo` return, in the same world, results that agree on the fields
`a` and `b` (whatever their fields `c`), the two runs of `func` record the same
calls, so they make identical calls to `bar` with identical arguments; when the
two versions also leave the same world behind, the two runs end in the same
world. -/
theorem func_ignores_c {W : Type} (foo₁ foo₂ : W → ints × W) (bar : Int → Int → W → W)
    (w : W) (t : List Call)
    (ha : (foo₁ w).1.a = (foo₂ w).1.a) (hb : (foo₁ w).1.b = (foo₂ w).1.b) :
    (func (tracedFoo foo₁) (tracedBar bar) (w, t)).2 =
      (func (tracedFoo foo₂) (tracedBar bar) (w, t)).2 ∧
    barCalls (func (tracedFoo foo₁) (tracedBar bar) (w, t)).2 =
      barCalls (func (tracedFoo foo₂) (tracedBar bar) (w, t)).2 ∧
    ((foo₁ w).2 = (foo₂ w).2 →
      func (tracedFoo foo₁) (tracedBar bar) (w, t) =
        func (tracedFoo foo₂) (tracedBar bar) (w, t)) := by
  have h : (func (tracedFoo foo₁) (tracedBar bar) (w, t)).2 =
      (func (tracedFoo foo₂) (tracedBar bar) (w, t)).2 := by
    simp [func, tracedFoo, tracedBar, ha, hb]
  refine ⟨h, by rw [h], fun hw => ?_⟩
  simp [func, tracedFoo, tracedBar, ha, hb, hw]

theorem func_ignores_c_witness :
    (func (tracedFoo fun n : Nat => (({ a := 1, b := 2, c := 3 } : ints), n))
        (tracedBar fun _ _ n => n + 1) (0, [])).2 =
      (func (tracedFoo fun n : Nat => (({ a := 1, b := 2, c := 77 } : ints), n))
        (tracedBar fun _ _ n => n + 1) (0, [])).2 ∧
    func (tracedFoo fun n : Nat => (({ a := 1, b := 2, c := 3 } : ints), n))
        (tracedBar fun _ _ n => n + 1) (0, []) =
      func (tracedFoo fun n : Nat => (({ a := 1, b := 2, c := 77 } : ints), n))
        (tracedBar fun _ _ n => n + 1) (0, []) :=
  ⟨(func_ignores_c (fun n : Nat => (({ a := 1, b := 2, c := 3 } : ints), n))
      (fun n : Nat => (({ a := 1, b := 2, c := 77 } : ints), n))
      (fun _ _ n => n + 1) 0 [] rfl rfl).1,
   (func_ignores_c (fun n : Nat => (({ a := 1, b := 2, c := 3 } : ints), n))
      (fun n : Nat => (({ a := 1, b := 2, c := 77 } : ints), n))
      (fun _ _ n => n + 1) 0 [] rfl rfl).2.2 rfl⟩

/-! ## The lowering and its dead stores -/

/-- The lowering computes `func`. -/
theorem exec_funcStores {W : Type} (foo : W → ints × W) (bar : Int → Int → W → W) (w : W) :
    exec foo bar funcStores w = some (func foo bar w) := by
  simp [exec, funcStores, run, step, Frame.entry, setField, ints.get, func]

theorem exec_funcStoresNoC {W : Type} (foo : W → ints × W) (bar : Int → Int → W → W) (w : W) :
    exec foo bar funcStoresNoC w = some (func foo bar w) := by
  simp [exec, funcStoresNoC, funcStores, run, step, Frame.entry, setField, ints.get, func]

theorem dse_funcStores : dse funcStores = funcStoresNoC := by decide

theorem run_dse_of_agreeOff {W : Type} (foo : W → ints × W) (bar : Int → Int → W → W) :
    ∀ (p : List Instr) (dead : Field → Bool) (σ τ σ' : Frame W),
      AgreeOff dead σ τ → (∀ f, dead f = true → readLater f p = false) →
      run foo bar p σ = some σ' →
      ∃ τ', run foo bar (dse p) τ = some τ' ∧ σ'.world = τ'.world := by
  intro p
  induction p with
  | nil =>
      intro dead σ τ σ' hag _ hrun
      simp only [run, Option.some.injEq] at hrun
      subst hrun
      exact ⟨τ, rfl, hag.1⟩
  | cons i rest ih =>
      intro dead σ τ σ' hag hdead hrun
      obtain ⟨w₁, r₁, s₁, a₁⟩ := σ
      obtain ⟨w₂, r₂, s₂, a₂⟩ := τ
      obtain ⟨hw, hr, hargs, hs⟩ := hag
      simp only at hw hr hargs hs
      subst hw hr hargs
      cases i with
      | callFoo =>
          simp only [run, step] at hrun
          simp only [dse, run, step]
          refine ih dead _ _ σ' ?_ (fun f hf => ?_) hrun
          · exact ⟨rfl, rfl, rfl, hs⟩
          · simpa [readLater] using hdead f hf
      | callBar =>
          have hrest : ∀ f, dead f = true → readLater f rest = false := fun f hf => by
            simpa [readLater] using hdead f hf
          rcases a₁ with _ | ⟨x, _ | ⟨y, _ | ⟨z, l⟩⟩⟩
          · simp [run, step] at hrun
          · simp [run, step] at hrun
          · simp only [run, step] at hrun
            simp only [dse, run, step]
            refine ih dead _ _ σ' ?_ hrest hrun
            exact ⟨rfl, rfl, rfl, hs⟩
          · simp [run, step] at hrun
      | load g =>
          have hg : dead g = false := by
            cases h : dead g with
            | false => rfl
            | true => simpa [readLater] using hdead g h
          have hrest : ∀ f, dead f = true → readLater f rest = false := fun f hf => by
            have hne : g ≠ f := by
              rintro rfl
              simp [hg] at hf
            simpa [readLater, hne] using hdead f hf
          have hsg := hs g hg
          simp only at hsg
          cases hv : s₁ g with
          | none => simp [run, step, hv] at hrun
          | some v =>
              simp only [run, step, hv] at hrun
              rw [hv] at hsg
              simp only [dse, run, step, ← hsg]
              refine ih dead _ _ σ' ?_ hrest hrun
              exact ⟨rfl, rfl, rfl, hs⟩
      | store g =>
          cases r₁ with
          | none => simp [run, step] at hrun
          | some r =>
              simp only [run, step] at hrun
              by_cases hlater : readLater g rest = true
              · simp only [dse, hlater, if_true, run, step]
                refine ih (fun f => dead f && !decide (f = g)) _ _ σ' ?_ (fun f hf => ?_) hrun
                · refine ⟨rfl, rfl, rfl, fun f hf => ?_⟩
                  by_cases hfg : f = g
                  · simp [setField, hfg]
                  · simp only [setField, hfg, if_false]
                    exact hs f (by simpa [hfg] using hf)
                · have hf' : dead f = true ∧ f ≠ g := by simpa using hf
                  have h := hdead f hf'.1
                  simpa [readLater, Ne.symm hf'.2] using h
              · simp only [dse, hlater]
                refine ih (fun f => dead f || decide (f = g)) _ _ σ' ?_ (fun f hf => ?_) hrun
                · refine ⟨rfl, rfl, rfl, fun f hf => ?_⟩
                  have hf' : dead f = false ∧ f ≠ g := by simpa using hf
                  simp only [setField, hf'.2, if_false]
                  exact hs f hf'.1
                · by_cases hfg : f = g
                  · subst hfg
                    simpa using hlater
                  · have hd : dead f = true := by simpa [hfg] using hf
                    have h := hdead f hd
                    simpa [readLater, Ne.symm hfg] using h

/-- Deleting every dead store of a straight-line program keeps the world it
leaves behind, whatever `foo` and `bar` are, whenever the program has a defined
result. -/
theorem exec_dse {W : Type} (foo : W → ints × W) (bar : Int → Int → W → W)
    (p : List Instr) (w w' : W) (h : exec foo bar p w = some w') :
    exec foo bar (dse p) w = some w' := by
  simp only [exec, Option.map_eq_some'] at h ⊢
  obtain ⟨σ', hrun, hw'⟩ := h
  obtain ⟨τ', hτ, hww⟩ := run_dse_of_agreeOff foo bar p (fun _ => false) (Frame.entry w)
    (Frame.entry w) σ' ⟨rfl, rfl, rfl, fun _ _ => rfl⟩ (fun f hf => by simp at hf) hrun
  exact ⟨τ', hτ, by rw [← hww, hw']⟩

/-- Deleting every dead store keeps the calls a program makes and their
arguments. -/
theorem observe_dse {W : Type} (foo : W → ints × W) (bar : Int → Int → W → W)
    (p : List Instr) (w : W) (t : List Call) (h : observe foo bar p w = some t) :
    observe foo bar (dse p) w = some t := by
  simp only [observe, Option.map_eq_some'] at h ⊢
  obtain ⟨wt, hexec, ht⟩ := h
  exact ⟨wt, exec_dse _ _ p _ _ hexec, ht⟩

/-- C3: in the lowering of `func` to three field stores of the result of `foo`
followed by the reads that build the call to `bar`, instructions 1, 2 and 3 are
the stores to `s.a`, `s.b` and `s.c`; the store to `s.c` is dead and the stores
to `s.a` and `s.b` are not; and the variant with the store to `s.c` deleted has
a defined result and makes the same calls with the same arguments as the
original (`foo`, then `bar` on the fields `a` and `b` of its result), for every
`foo`, `bar` and starting world. -/
theorem store_c_dead_and_deletable :
    (funcStores.get? 1 = some (Instr.store Field.a) ∧
      funcStores.get? 2 = some (Instr.store Field.b) ∧
      funcStores.get? 3 = some (Instr.store Field.c)) ∧
    deadStore funcStores 3 = true ∧
    deadStore funcStores 1 = false ∧
    deadStore funcStores 2 = false ∧
    ∀ (W : Type) (foo : W → ints × W) (bar : Int → Int → W → W) (w : W),
      observe foo bar funcStoresNoC w = observe foo bar funcStores w ∧
      observe foo bar funcStores w = some [Call.foo, Call.bar (foo w).1.a (foo w).1.b] ∧
      exec foo bar funcStoresNoC w = exec foo bar funcStores w ∧
      exec foo bar funcStores w = some (func foo bar w) := by
  refine ⟨by decide, by decide, by decide, by decide, fun W foo bar w => ?_⟩
  have h₁ : observe foo bar funcStores w = some [Call.foo, Call.bar (foo w).1.a (foo w).1.b] := by
    simp [observe, exec_funcStores, func, tracedFoo, tracedBar]
  have h₂ : observe foo bar funcStoresNoC w =
      some [Call.foo, Call.bar (foo w).1.a (foo w).1.b] := by
    simp [observe, exec_funcStoresNoC, func, tracedFoo, tracedBar]
  exact ⟨by rw [h₁, h₂], h₁, by rw [exec_funcStores, exec_funcStoresNoC], exec_funcStores foo bar w⟩

/-! ## The directives and the dump search -/

/-- C5: the harness directives of the file are mutually consistent: there is a
single `dg-do` directive and its mode is `compile` (not `run`); the
`scan-rtl-dump` assertion and the `cleanup-rtl-dump` directive both name the
pass `dse1`; the flags of `dg-options` are `-O2` and `-fdump-rtl-dse1`, so the
dump of every pass that is scanned or cleaned up is one the options
request. -/
theorem directives_consistent :
    doModes directives = ["compile"] ∧
    "compile" ≠ "run" ∧
    scannedPasses directives = ["dse1"] ∧
    cleanedPasses directives = ["dse1"] ∧
    optionFlags directives = ["-O2".toList, "-fdump-rtl-dse1".toList] ∧
    dumpFlag "dse1" = "-fdump-rtl-dse1".toList ∧
    (scannedPasses directives ++ cleanedPasses directives).all (dumpRequested directives) =
      true := by
  decide

theorem mem_occurrences (pat : List Char) :
    ∀ (text : List Char) (i : Nat),
      i ∈ occurrences pat text ↔ i ≤ text.length ∧ pat <+: text.drop i := by
  intro text
  induction text with
  | nil =>
      intro i
      by_cases hp : pat.isPrefixOf [] = true
      · have hp' : pat <+: [] := List.isPrefixOf_iff_prefix.mp hp
        simp [occurrences, hp, hp']
      · have hp' : ¬ pat <+: [] := fun h => hp (List.isPrefixOf_iff_prefix.mpr h)
        simp only [occurrences, hp, List.drop_nil, hp', and_false]
        simp
  | cons c cs ih =>
      intro i
      cases i with
      | zero =>
          by_cases hp : pat.isPrefixOf (c :: cs) = true
          · have hp' : pat <+: c :: cs := List.isPrefixOf_iff_prefix.mp hp
            simp [occurrences, hp, hp']
          · have hp' : ¬ pat <+: c :: cs := fun h => hp (List.isPrefixOf_iff_prefix.mpr h)
            simp [occurrences, hp, hp']
      | succ k =>
          have hk := ih k
          by_cases hp : pat.isPrefixOf (c :: cs) = true
          · simp [occurrences, hp, hk]
          · simp [occurrences, hp, hk]

theorem scanRtlDump_iff (pat text : List Char) :
    scanRtlDump pat text = true ↔ ∃ before after, text = before ++ pat ++ after := by
  constructor
  · intro h
    have hne : occurrences pat text ≠ [] := by
      intro hnil
      simp [scanRtlDump, hnil] at h
    obtain ⟨i, hi⟩ := List.exists_mem_of_ne_nil _ hne
    obtain ⟨_, after, hafter⟩ := (mem_occurrences pat text i).mp hi
    refine ⟨text.take i, after, ?_⟩
    rw [List.append_assoc, hafter, List.take_append_drop]
  · rintro ⟨before, after, rfl⟩
    have hmem : before.length ∈ occurrences pat (before ++ pat ++ after) := by
      rw [mem_occurrences]
      refine ⟨by simp, ?_⟩
      rw [List.append_assoc, List.drop_left]
      exact List.prefix_append _ _
    cases hocc : occurrences pat (before ++ pat ++ after) with
    | nil => rw [hocc] at hmem; cases hmem
    | cons j js => rw [scanRtlDump, hocc]; rfl

theorem testPasses_eq (dump : List Char) :
    testPasses dump = scanRtlDump (countKey ++ ['2']) dump := by
  simp [testPasses, finalPasses, directives, countKey]

theorem toDigitsCore_ne_nil (b : Nat) :
    ∀ (fuel n : Nat) (ds : List Char), ds ≠ [] → Nat.toDigitsCore b fuel n ds ≠ [] := by
  intro fuel
  induction fuel with
  | zero => intro n ds h; simpa [Nat.toDigitsCore] using h
  | succ k ih =>
      intro n ds _
      simp only [Nat.toDigitsCore]
      split
      · simp
      · exact ih _ _ (by simp)

theorem toDigits_ne_nil (b n : Nat) : Nat.toDigits b n ≠ [] := by
  simp only [Nat.toDigits, Nat.toDigitsCore]
  split
  · simp
  · exact toDigitsCore_ne_nil b _ _ _ (by simp)

theorem scanRtlDump_iff_occurs (pat text : List Char) :
    scanRtlDump pat text = true ↔ ∃ i, i ∈ occurrences pat text := by
  cases hocc : occurrences pat text with
  | nil => simp [scanRtlDump, hocc]
  | cons j js => simp [scanRtlDump, hocc]

/-- What `reportsCount` says of the text of the dump: the key occurs at one
position only, and the numeral of the count follows it. -/
theorem reportsCount_spec (dump : List Char) (N : Nat) (h : reportsCount dump N = true) :
    ∃ i rest, occurrences countKey dump = [i] ∧
      dump.drop i = countKey ++ (Nat.toDigits 10 N ++ rest) := by
  unfold reportsCount at h
  split at h
  · rename_i i hocc
    have hi : i ∈ occurrences countKey dump := by simp [hocc]
    obtain ⟨_, u, hu⟩ := (mem_occurrences countKey dump i).mp hi
    have hdrop : dump.drop (i + countKey.length) = u := by
      rw [← List.drop_drop, ← hu, List.drop_left]
    simp only [Bool.and_eq_true, List.isPrefixOf_iff_prefix] at h
    obtain ⟨v, hv⟩ := h.1
    refine ⟨i, v, hocc, ?_⟩
    rw [hv, hdrop, hu]
  · exact absurd h (by simp)

theorem digitChar_eq_two_iff (n : Nat) (h : n < 10) : Nat.digitChar n = '2' ↔ n = 2 := by
  interval_cases n <;> decide

theorem begins_with_two_of_lt_ten (n : Nat) (h : n < 10) :
    (∃ k, 2 * 10 ^ k ≤ n ∧ n < 3 * 10 ^ k) ↔ n = 2 := by
  constructor
  · rintro ⟨k, h₁, h₂⟩
    cases k with
    | zero => simp at h₁ h₂; omega
    | succ k =>
        have : 10 ^ (k + 1) ≥ 10 := by
          calc 10 ^ (k + 1) = 10 ^ k * 10 := pow_succ 10 k
            _ ≥ 1 * 10 := Nat.mul_le_mul_right 10 (Nat.one_le_pow _ _ (by decide))
        omega
  · rintro rfl
    exact ⟨0, by simp, by simp⟩

theorem begins_with_two_of_ten_le (n : Nat) (h : 10 ≤ n) :
    (∃ k, 2 * 10 ^ k ≤ n ∧ n < 3 * 10 ^ k) ↔
      ∃ k, 2 * 10 ^ k ≤ n / 10 ∧ n / 10 < 3 * 10 ^ k := by
  constructor
  · rintro ⟨k, h₁, h₂⟩
    cases k with
    | zero => simp at h₂; omega
    | succ k =>
        refine ⟨k, ?_, ?_⟩
        · rw [pow_succ] at h₁; omega
        · rw [pow_succ] at h₂; omega
  · rintro ⟨k, h₁, h₂⟩
    refine ⟨k + 1, ?_, ?_⟩
    · rw [pow_succ]; omega
    · rw [pow_succ]; omega

theorem head_toDigitsCore_eq_two_iff :
    ∀ (n fuel : Nat) (ds : List Char), n < fuel →
      ((Nat.toDigitsCore 10 fuel n ds).head? = some '2' ↔
        ∃ k, 2 * 10 ^ k ≤ n ∧ n < 3 * 10 ^ k) := by
  intro n
  induction n using Nat.strong_induction_on with
  | _ n ih =>
      intro fuel ds hfuel
      cases fuel with
      | zero => omega
      | succ f =>
          simp only [Nat.toDigitsCore]
          by_cases hz : n / 10 = 0
          · have hlt : n < 10 := by omega
            rw [if_pos hz, begins_with_two_of_lt_ten n hlt, Nat.mod_eq_of_lt hlt]
            simp [digitChar_eq_two_iff n hlt]
          · have hge : 10 ≤ n := by omega
            rw [if_neg hz, begins_with_two_of_ten_le n hge]
            exact ih (n / 10) (by omega) f _ (by omega)

/-- The decimal numeral of `n` begins with the digit 2 exactly when `n` lies
between `2 * 10 ^ k` and `3 * 10 ^ k` for some `k`. -/
theorem head_toDigits_eq_two_iff (n : Nat) :
    (Nat.toDigits 10 n).head? = some '2' ↔ ∃ k, 2 * 10 ^ k ≤ n ∧ n < 3 * 10 ^ k :=
  head_toDigitsCore_eq_two_iff n (n + 1) [] (Nat.lt_succ_self n)

theorem testPasses_iff_head (dump : List Char) (N : Nat) (h : reportsCount dump N = true) :
    testPasses dump = true ↔ (Nat.toDigits 10 N).head? = some '2' := by
  obtain ⟨i, rest, hocc, hdrop⟩ := reportsCount_spec dump N h
  have hi : i ∈ occurrences countKey dump := by simp [hocc]
  have hile := ((mem_occurrences countKey dump i).mp hi).1
  rw [testPasses_eq, scanRtlDump_iff_occurs]
  constructor
  · rintro ⟨j, hj⟩
    obtain ⟨hjle, t, ht⟩ := (mem_occurrences _ dump j).mp hj
    have hjkey : j ∈ occurrences countKey dump := by
      rw [mem_occurrences]
      exact ⟨hjle, ['2'] ++ t, by rw [← ht, List.append_assoc]⟩
    have hji : j = i := by simpa [hocc] using hjkey
    subst hji
    rw [hdrop, List.append_assoc] at ht
    have hu : ['2'] ++ t = Nat.toDigits 10 N ++ rest := List.append_cancel_left ht
    cases hd : Nat.toDigits 10 N with
    | nil => exact absurd hd (toDigits_ne_nil 10 N)
    | cons d ds =>
        rw [hd] at hu
        simp only [List.singleton_append, List.cons_append, List.cons.injEq] at hu
        simp [← hu.1]
  · intro hhead
    cases hd : Nat.toDigits 10 N with
    | nil => exact absurd hd (toDigits_ne_nil 10 N)
    | cons d ds =>
        rw [hd] at hhead hdrop
        simp only [List.head?_cons, Option.some.injEq] at hhead
        subst hhead
        refine ⟨i, (mem_occurrences _ dump i).mpr ⟨hile, ds ++ rest, ?_⟩⟩
        rw [hdrop]
        simp

theorem testPasses_eq_false_of_absent (text : List Char)
    (habsent : ¬ ∃ before after, text = before ++ "global deletions = 2".toList ++ after) :
    testPasses text = false := by
  cases hpass : testPasses text with
  | false => rfl
  | true =>
      rw [testPasses_eq, scanRtlDump_iff] at hpass
      exact absurd hpass habsent

/-- C4, as amended: for a dump that reports the count `N`, the final assertion
of the test passes exactly when the decimal numeral of `N` begins with the
digit 2, that is when `2 * 10 ^ k ≤ N < 3 * 10 ^ k` for some `k` (2, 20 to 29,
200 to 299, and so on); and the assertion fails on every text from which the
pattern `global deletions = 2` is absent. -/
theorem testPasses_iff_numeral_begins_with_two (dump : List Char) (N : Nat)
    (h : reportsCount dump N = true) :
    (testPasses dump = true ↔ (Nat.toDigits 10 N).head? = some '2') ∧
    (testPasses dump = true ↔ ∃ k, 2 * 10 ^ k ≤ N ∧ N < 3 * 10 ^ k) ∧
    ∀ text : List Char,
      (¬ ∃ before after, text = before ++ "global deletions = 2".toList ++ after) →
        testPasses text = false :=
  ⟨testPasses_iff_head dump N h,
   (testPasses_iff_head dump N h).trans (head_toDigits_eq_two_iff N),
   testPasses_eq_false_of_absent⟩

theorem testPasses_iff_numeral_begins_with_two_witness :
    reportsCount dumpTwo 2 = true ∧
    (testPasses dumpTwo = true ↔ (Nat.toDigits 10 2).head? = some '2') ∧
    (testPasses dumpTwo = true ↔ ∃ k, 2 * 10 ^ k ≤ 2 ∧ 2 < 3 * 10 ^ k) ∧
    testPasses "global deletions = 3".toList = false :=
  ⟨by decide,
   (testPasses_iff_numeral_begins_with_two dumpTwo 2 (by decide)).1,
   (testPasses_iff_numeral_begins_with_two dumpTwo 2 (by decide)).2.1,
   (testPasses_iff_numeral_begins_with_two dumpTwo 2 (by decide)).2.2
     "global deletions = 3".toList
     (fun hex => absurd ((scanRtlDump_iff _ _).mpr hex) (by decide))⟩

/-- C4, as stated, fails: a dump whose report line gives the count 20 passes
the final assertion of the test, and 20 is not 2. -/
theorem testPasses_on_count_twenty :
    reportsCount dumpTwenty 20 = true ∧ testPasses dumpTwenty = true ∧ (20 : Nat) ≠ 2 := by
  decide

/-- For a count of a single digit the amended condition is the stated one: the
assertion passes exactly when the count is 2. -/
theorem testPasses_iff_two_of_lt_ten (dump : List Char) (N : Nat) (hN : N < 10)
    (h : reportsCount dump N = true) : testPasses dump = true ↔ N = 2 := by
  rw [testPasses_iff_head dump N h, head_toDigits_eq_two_iff, begins_with_two_of_lt_ten N hN]

end Pr44194
